import Mathlib

set_option maxRecDepth 100000

/-!
Shallow embedding of `src/enhanced-voice-typing.py` (class `VoiceTyping`).

Audio chunks are modelled abstractly (a type parameter `α`) for the
segmentation state machine, and concretely as `List ℤ` of raw int16
samples for the assembler/dispatcher (`process_audio`).

Python float arithmetic in the two threshold comparisons is modelled
over ℚ: both comparisons (`silence_chunks * 30 / 1000 >= 0.8` and
`len(audio_np) < 0.5 * 16000`) are far from any float-rounding boundary
(the nearest representable doubles differ from the rational values by
less than 2⁻⁴⁰ while the gap to the threshold is at least 0.01), so the
rational model agrees with the float semantics on every input.
-/

/-- `self.RATE = 16000` (samples per second). -/
def RATE : ℕ := 16000

/-- `self.CHUNK_DURATION_MS = 30`. -/
def CHUNK_DURATION_MS : ℕ := 30

/-- `self.CHUNK_SIZE = int(self.RATE * self.CHUNK_DURATION_MS / 1000)` = 480. -/
def CHUNK_SIZE : ℕ := RATE * CHUNK_DURATION_MS / 1000

/-- `self.PRE_BUFFER_DURATION_SEC = 1.5`. -/
def PRE_BUFFER_DURATION_SEC : ℚ := 3 / 2

/-- `self.SILENCE_DURATION_SEC = 0.8`. -/
def SILENCE_DURATION_SEC : ℚ := 4 / 5

/-- Capacity of the pre-recording circular buffer:
`maxlen = int(self.PRE_BUFFER_DURATION_SEC * self.RATE / self.CHUNK_SIZE)` = 50. -/
def PRE_BUFFER_CAPACITY : ℕ :=
  (PRE_BUFFER_DURATION_SEC * (RATE : ℚ) / (CHUNK_SIZE : ℚ)).floor.toNat

/-- The mutable state owned by the main loop of `VoiceTyping.run`:
`self.pre_buffer` (a `collections.deque` with `maxlen = PRE_BUFFER_CAPACITY`),
`self.recording_buffer`, `self.is_recording` and `self.silence_chunks`. -/
structure MState (α : Type) where
  is_recording : Bool
  recording_buffer : List α
  silence_chunks : ℕ
  pre_buffer : List α

/-- State as set up in `VoiceTyping.__init__`. -/
def initState {α : Type} : MState α :=
  { is_recording := false, recording_buffer := [], silence_chunks := 0, pre_buffer := [] }

/-- The last `n` elements of a list (the contents of a `deque(maxlen = n)`
after pushing the whole list). -/
def lastN {α : Type} (n : ℕ) (l : List α) : List α := l.drop (l.length - n)

/-- `self.pre_buffer.append(chunk)` on a `deque` with
`maxlen = PRE_BUFFER_CAPACITY`: append on the right, evicting from the left
whenever the capacity would be exceeded, i.e. keep the last
`PRE_BUFFER_CAPACITY` elements of `buf ++ [chunk]`. -/
def pushPre {α : Type} (buf : List α) (chunk : α) : List α :=
  lastN PRE_BUFFER_CAPACITY (buf ++ [chunk])

/-- One iteration of the body of the `while` loop in `VoiceTyping.run`
(lines 146-178), given the chunk pulled from the queue and the VAD verdict
`is_speech = self.vad.is_speech(chunk, self.RATE)`.  Returns the next state
plus the buffer handed to `process_audio` when the finalize branch fires.
Note the order: the chunk is appended to `pre_buffer` (line 147) before the
speech test, so the snapshot `list(self.pre_buffer)` taken on the
Idle-to-Recording transition (line 156) already ends with the current chunk. -/
def step {α : Type} (s : MState α) (chunk : α) (is_speech : Bool) :
    MState α × Option (List α) :=
  let pre := pushPre s.pre_buffer chunk
  if is_speech && !s.is_recording then
    -- Start recording - include pre-buffer (lines 152-158)
    ({ is_recording := true, recording_buffer := pre ++ [chunk],
       silence_chunks := 0, pre_buffer := pre }, none)
  else if s.is_recording then
    -- Continue recording (lines 160-178)
    let rb := s.recording_buffer ++ [chunk]
    if !is_speech then
      let sc := s.silence_chunks + 1
      if SILENCE_DURATION_SEC ≤ ((sc : ℚ) * (CHUNK_DURATION_MS : ℚ)) / 1000 then
        -- Process the recording, then reset (lines 168-176)
        ({ is_recording := false, recording_buffer := [],
           silence_chunks := 0, pre_buffer := pre }, some rb)
      else
        ({ is_recording := true, recording_buffer := rb,
           silence_chunks := sc, pre_buffer := pre }, none)
    else
      ({ is_recording := true, recording_buffer := rb,
         silence_chunks := 0, pre_buffer := pre }, none)
  else
    ({ s with pre_buffer := pre }, none)

/-- A run of chunks all classified as silence by the VAD. -/
def silEvents {α : Type} (cs : List α) : List (α × Bool) :=
  cs.map (fun c => (c, false))

/-- Iterate `step` over a stream of (chunk, is_speech) events, collecting the
finalized buffers handed to `process_audio`, in order. -/
def runMachine {α : Type} (s : MState α) : List (α × Bool) → MState α × List (List α)
  | [] => (s, [])
  | e :: rest =>
    let p := step s e.1 e.2
    let r := runMachine p.1 rest
    (r.1, p.2.toList ++ r.2)

/-- The machine state reached from `initState` after a list of events. -/
def reachedState {α : Type} (events : List (α × Bool)) : MState α :=
  (runMachine initState events).1

/-- `np.frombuffer(b''.join(audio_data), dtype=np.int16).astype(np.float32)/32768.0`
(line 83): concatenate the chunks' int16 samples in order and scale each by
1/32768 (exact in float32 for int16 inputs, hence modelled exactly over ℚ). -/
def normalizeAudio (audio_data : List (List ℤ)) : List ℚ :=
  audio_data.flatten.map (fun s : ℤ => (s : ℚ) / 32768)

/-- The minimum-duration filter `len(audio_np) < 0.5 * self.RATE` (line 86). -/
def tooShort (audio_data : List (List ℤ)) : Bool :=
  decide (((normalizeAudio audio_data).length : ℚ) < 1 / 2 * (RATE : ℚ))

/-- `" ".join(segment.text.strip() for segment in segments if segment.text.strip())`
(line 105). -/
def fullTextOf (segments : List String) : String :=
  String.intercalate " " ((segments.map String.trim).filter (fun t => t ≠ ""))

/-- The external collaborators of the dispatcher, each of which may raise:
`self.model.transcribe` plus the two `subprocess.run` injection backends. -/
structure Env (ε : Type) where
  transcribe : List ℚ → Except ε (List String)
  ydotool : String → Except ε Unit
  xdotool : String → Except ε Unit

/-- `VoiceTyping.type_text` (lines 111-125): try `ydotool` with `text + ' '`;
on any exception fall back to `xdotool` with `text + ' '`; on any exception
there, print a failure line.  Returns (injection-call arguments, log lines);
never propagates an exception (both `except:` clauses are bare). -/
def typeText {ε : Type} (env : Env ε) (text : String) : List String × List String :=
  match env.ydotool (text ++ " ") with
  | .ok _ => ([text ++ " "], ["✓ " ++ text])
  | .error _ =>
    match env.xdotool (text ++ " ") with
    | .ok _ => ([text ++ " ", text ++ " "], ["✓ " ++ text])
    | .error _ => ([text ++ " ", text ++ " "], ["Failed to type: " ++ text])

/-- `VoiceTyping.process_audio` (lines 80-109).  Result on success:
(whether the transcription engine was invoked, injection-call arguments,
log lines).  An exception from `self.model.transcribe` is NOT caught here
(there is no try/except in `process_audio`), so it propagates as `.error`. -/
def processAudio {ε : Type} (env : Env ε) (audio_data : List (List ℤ)) :
    Except ε (Bool × List String × List String) :=
  let audio_np := normalizeAudio audio_data
  if tooShort audio_data then .ok (false, [], [])
  else
    match env.transcribe audio_np with
    | .error e => .error e
    | .ok segments =>
      let full_text := fullTextOf segments
      if full_text = "" then .ok (true, [], [])
      else
        let r := typeText env full_text
        .ok (true, r.1, r.2)

/-- The main loop of `VoiceTyping.run` over a finite stream of events,
dispatching each finalized buffer synchronously through `processAudio`.
The `try`/`finally` around the loop catches only `KeyboardInterrupt`, so an
exception raised by `process_audio` (i.e. by the transcription call)
terminates the loop: modelled by `.error`, which drops all later events. -/
def runLoop {ε : Type} (env : Env ε) (s : MState (List ℤ)) :
    List (List ℤ × Bool) → Except ε (MState (List ℤ) × List (Bool × List String × List String))
  | [] => .ok (s, [])
  | e :: rest =>
    let p := step s e.1 e.2
    match p.2 with
    | none => runLoop env p.1 rest
    | some buf =>
      match processAudio env buf with
      | .error err => .error err
      | .ok r =>
        match runLoop env p.1 rest with
        | .error err => .error err
        | .ok (sf, rs) => .ok (sf, r :: rs)

/-- Injection-call arguments of a `processAudio` result. -/
def injectionsOf {ε : Type} (r : Except ε (Bool × List String × List String)) : List String :=
  match r with
  | .ok v => v.2.1
  | .error _ => []

/-- Per-dispatch transcription-invoked flags of a `runLoop` result. -/
def dispatchFlags {ε : Type}
    (r : Except ε (MState (List ℤ) × List (Bool × List String × List String))) : List Bool :=
  match r with
  | .ok v => v.2.map (fun d => d.1)
  | .error _ => []

/-- `true` exactly on `.ok`. -/
def okB {ε A : Type} : Except ε A → Bool
  | .ok _ => true
  | .error _ => false

/-- The error of an `Except`, if any. -/
def errB {ε A : Type} : Except ε A → Option ε
  | .ok _ => none
  | .error e => some e

/-- The pre-buffer contents after pushing a whole list of chunks into an
initially empty deque. -/
def preContents {α : Type} (l : List α) : List α :=
  l.foldl pushPre []

/-- A chunk of `CHUNK_SIZE` zero samples (30 ms of digital silence). -/
def zChunk : List ℤ := List.replicate CHUNK_SIZE 0

/-- The spec's scenario: 100 silence chunks, 40 speech chunks, 30 silence
chunks, every chunk 480 samples. -/
def scenarioEvents : List (List ℤ × Bool) :=
  List.replicate 100 (zChunk, false) ++ List.replicate 40 (zChunk, true)
    ++ List.replicate 30 (zChunk, false)

/-- Collaborators that all succeed (transcription yields no segments). -/
def envOk : Env Unit :=
  { transcribe := fun _ => .ok [], ydotool := fun _ => .ok (), xdotool := fun _ => .ok () }

/-- Collaborators whose transcription call raises. -/
def envBoom : Env String :=
  { transcribe := fun _ => .error "transcription failed",
    ydotool := fun _ => .ok (), xdotool := fun _ => .ok () }

/-- Collaborators whose two injection backends both raise. -/
def envFailInj : Env Unit :=
  { transcribe := fun _ => .ok ["hello"],
    ydotool := fun _ => .error (), xdotool := fun _ => .error () }

/-- Collaborators whose transcription returns fixed segments. -/
def envHello : Env Unit :=
  { transcribe := fun _ => .ok [" hello ", "", "world "],
    ydotool := fun _ => .ok (), xdotool := fun _ => .ok () }

/-- One utterance: a speech chunk followed by 27 silence chunks. -/
def oneUtterance : List (List ℤ × Bool) :=
  (zChunk, true) :: List.replicate 27 (zChunk, false)

/-- Two utterances back to back. -/
def twoUtterances : List (List ℤ × Bool) :=
  oneUtterance ++ oneUtterance

/-!
## Executable mirrors

ℚ arithmetic (`Rat.inv`, `Int.floor`) does not reduce inside the kernel, so
the definitions below mirror `pushPre`, `step`, `tooShort`, `processAudio`,
`runMachine` and `runLoop` with the provably equal ℕ-level tests
(`PRE_BUFFER_CAPACITY = 50`, threshold counter `27`, minimum length `8000`).
Each mirror is proved equal to its source-faithful original below; concrete
runs are evaluated through the mirrors only.
-/

def pushPreExec {α : Type} (buf : List α) (chunk : α) : List α :=
  lastN 50 (buf ++ [chunk])

def stepExec {α : Type} (s : MState α) (chunk : α) (is_speech : Bool) :
    MState α × Option (List α) :=
  let pre := pushPreExec s.pre_buffer chunk
  if is_speech && !s.is_recording then
    ({ is_recording := true, recording_buffer := pre ++ [chunk],
       silence_chunks := 0, pre_buffer := pre }, none)
  else if s.is_recording then
    let rb := s.recording_buffer ++ [chunk]
    if !is_speech then
      let sc := s.silence_chunks + 1
      if 27 ≤ sc then
        ({ is_recording := false, recording_buffer := [],
           silence_chunks := 0, pre_buffer := pre }, some rb)
      else
        ({ is_recording := true, recording_buffer := rb,
           silence_chunks := sc, pre_buffer := pre }, none)
    else
      ({ is_recording := true, recording_buffer := rb,
         silence_chunks := 0, pre_buffer := pre }, none)
  else
    ({ s with pre_buffer := pre }, none)

def runMachineExec {α : Type} (s : MState α) : List (α × Bool) → MState α × List (List α)
  | [] => (s, [])
  | e :: rest =>
    let p := stepExec s e.1 e.2
    let r := runMachineExec p.1 rest
    (r.1, p.2.toList ++ r.2)

def tooShortExec (audio_data : List (List ℤ)) : Bool :=
  decide ((normalizeAudio audio_data).length < 8000)

def processAudioExec {ε : Type} (env : Env ε) (audio_data : List (List ℤ)) :
    Except ε (Bool × List String × List String) :=
  let audio_np := normalizeAudio audio_data
  if tooShortExec audio_data then .ok (false, [], [])
  else
    match env.transcribe audio_np with
    | .error e => .error e
    | .ok segments =>
      let full_text := fullTextOf segments
      if full_text = "" then .ok (true, [], [])
      else
        let r := typeText env full_text
        .ok (true, r.1, r.2)

def runLoopExec {ε : Type} (env : Env ε) (s : MState (List ℤ)) :
    List (List ℤ × Bool) → Except ε (MState (List ℤ) × List (Bool × List String × List String))
  | [] => .ok (s, [])
  | e :: rest =>
    let p := stepExec s e.1 e.2
    match p.2 with
    | none => runLoopExec env p.1 rest
    | some buf =>
      match processAudioExec env buf with
      | .error err => .error err
      | .ok r =>
        match runLoopExec env p.1 rest with
        | .error err => .error err
        | .ok (sf, rs) => .ok (sf, r :: rs)

/-- The invariant maintained by the main loop between iterations: while
recording, the buffer holds at least two chunks more than the silence counter
and the counter is below the finalize threshold; while idle, the buffer is
empty and the counter is zero. -/
def MInv {α : Type} (s : MState α) : Prop :=
  (s.is_recording = true →
    s.silence_chunks + 2 ≤ s.recording_buffer.length ∧ s.silence_chunks ≤ 26)
  ∧ (s.is_recording = false → s.recording_buffer = [] ∧ s.silence_chunks = 0)

/-- Every chunk stored in the pre-buffer / recording buffer satisfies `P`. -/
def buffersSat {α : Type} (P : α → Prop) (s : MState α) : Prop :=
  (∀ c ∈ s.pre_buffer, P c) ∧ ∀ c ∈ s.recording_buffer, P c

/-- Sequentially dispatch a list of finalized buffers through `processAudio`,
stopping at the first exception, and pair the results with a final state. -/
def dispatchAll {ε : Type} (env : Env ε) (sf : MState (List ℤ)) :
    List (List (List ℤ)) → Except ε (MState (List ℤ) × List (Bool × List String × List String))
  | [] => .ok (sf, [])
  | b :: bs =>
    match processAudio env b with
    | .error e => .error e
    | .ok r =>
      match dispatchAll env sf bs with
      | .error e => .error e
      | .ok (s', rs) => .ok (s', r :: rs)

/-! ## Basic facts about the constants and `lastN` -/

theorem chunk_size_eq : CHUNK_SIZE = 480 := by decide

theorem pre_buffer_capacity_eq : PRE_BUFFER_CAPACITY = 50 := by
  have h : PRE_BUFFER_DURATION_SEC * (RATE : ℚ) / (CHUNK_SIZE : ℚ) = ((50 : ℕ) : ℚ) := by
    norm_num [PRE_BUFFER_DURATION_SEC, RATE, CHUNK_SIZE, CHUNK_DURATION_MS]
  rw [PRE_BUFFER_CAPACITY, h]
  decide

/-- The float comparison `silence_chunks * 30 / 1000 >= 0.8` holds exactly for
counters of at least 27 (⌈0.8 / 0.03⌉ = 27). -/
theorem silence_threshold_iff (sc : ℕ) :
    (SILENCE_DURATION_SEC ≤ ((sc : ℚ) * (CHUNK_DURATION_MS : ℚ)) / 1000) ↔ 27 ≤ sc := by
  have h30 : ((CHUNK_DURATION_MS : ℕ) : ℚ) = 30 := by norm_num [CHUNK_DURATION_MS]
  rw [SILENCE_DURATION_SEC, h30, div_le_div_iff₀ (by norm_num) (by norm_num)]
  constructor
  · intro h
    by_contra hlt
    push_neg at hlt
    have hle : (sc : ℚ) ≤ 26 := by exact_mod_cast Nat.le_of_lt_succ hlt
    nlinarith
  · intro h
    have hge : (27 : ℚ) ≤ (sc : ℚ) := by exact_mod_cast h
    nlinarith

theorem lastN_eq_self {α : Type} {n : ℕ} {l : List α} (h : l.length ≤ n) :
    lastN n l = l := by
  unfold lastN
  rw [Nat.sub_eq_zero_of_le h, List.drop_zero]

theorem length_lastN {α : Type} (n : ℕ) (l : List α) :
    (lastN n l).length = min n l.length := by
  unfold lastN
  rw [List.length_drop]
  omega

theorem length_lastN_le {α : Type} (n : ℕ) (l : List α) :
    (lastN n l).length ≤ n := by
  rw [length_lastN]; omega

theorem lastN_append_of_le {α : Type} {n : ℕ} (p z : List α) (h : n ≤ z.length) :
    lastN n (p ++ z) = lastN n z := by
  unfold lastN
  have hlen : (p ++ z).length - n = p.length + (z.length - n) := by
    rw [List.length_append]; omega
  rw [hlen, List.drop_append]

theorem lastN_lastN_append {α : Type} (n : ℕ) (x y : List α) :
    lastN n (lastN n x ++ y) = lastN n (x ++ y) := by
  by_cases h : n ≤ x.length
  · have hsplit : x = x.take (x.length - n) ++ x.drop (x.length - n) :=
      (List.take_append_drop _ x).symm
    have hz : n ≤ (x.drop (x.length - n) ++ y).length := by
      rw [List.length_append, List.length_drop]; omega
    calc lastN n (lastN n x ++ y)
        = lastN n (x.drop (x.length - n) ++ y) := rfl
      _ = lastN n (x.take (x.length - n) ++ (x.drop (x.length - n) ++ y)) :=
          (lastN_append_of_le _ _ hz).symm
      _ = lastN n (x ++ y) := by rw [← List.append_assoc, ← hsplit]
  · push_neg at h
    rw [lastN_eq_self (le_of_lt h)]

theorem foldl_pushPre {α : Type} (l : List α) :
    ∀ b : List α, b.length ≤ PRE_BUFFER_CAPACITY →
      List.foldl pushPre b l = lastN PRE_BUFFER_CAPACITY (b ++ l) := by
  induction l with
  | nil =>
    intro b hb
    simp only [List.foldl_nil, List.append_nil]
    exact (lastN_eq_self hb).symm
  | cons x xs ih =>
    intro b hb
    have hpb : (pushPre b x).length ≤ PRE_BUFFER_CAPACITY := length_lastN_le _ _
    have h1 : List.foldl pushPre b (x :: xs) = List.foldl pushPre (pushPre b x) xs := rfl
    rw [h1, ih (pushPre b x) hpb, pushPre, lastN_lastN_append]
    simp [List.append_assoc]

/-- Pushing at least one chunk normalizes the accumulator, so no length
hypothesis is needed for a nonempty push sequence. -/
theorem foldl_pushPre_cons {α : Type} (b : List α) (x : α) (l : List α) :
    List.foldl pushPre b (x :: l) = lastN PRE_BUFFER_CAPACITY (b ++ (x :: l)) := by
  have hpb : (pushPre b x).length ≤ PRE_BUFFER_CAPACITY := length_lastN_le _ _
  have h1 : List.foldl pushPre b (x :: l) = List.foldl pushPre (pushPre b x) l := rfl
  rw [h1, foldl_pushPre l (pushPre b x) hpb, pushPre, lastN_lastN_append]
  simp [List.append_assoc]

/-! ## The mirrors agree with the source-faithful definitions -/

theorem pushPre_eq {α : Type} (buf : List α) (chunk : α) :
    pushPre buf chunk = pushPreExec buf chunk := by
  rw [pushPre, pushPreExec, pre_buffer_capacity_eq]

theorem step_eq {α : Type} (s : MState α) (chunk : α) (is_speech : Bool) :
    step s chunk is_speech = stepExec s chunk is_speech := by
  simp only [step, stepExec, pushPre_eq, silence_threshold_iff]

theorem runMachine_eq {α : Type} (s : MState α) (events : List (α × Bool)) :
    runMachine s events = runMachineExec s events := by
  induction events generalizing s with
  | nil => rfl
  | cons e rest ih =>
    simp only [runMachine, runMachineExec, step_eq, ih]

theorem tooShort_eq (audio_data : List (List ℤ)) :
    tooShort audio_data = tooShortExec audio_data := by
  rw [tooShort, tooShortExec, decide_eq_decide,
    show (1 / 2 * (RATE : ℚ)) = ((8000 : ℕ) : ℚ) by norm_num [RATE], Nat.cast_lt]

theorem processAudio_eq {ε : Type} (env : Env ε) (audio_data : List (List ℤ)) :
    processAudio env audio_data = processAudioExec env audio_data := by
  simp only [processAudio, processAudioExec, tooShort_eq]

theorem runLoop_eq {ε : Type} (env : Env ε) (s : MState (List ℤ))
    (events : List (List ℤ × Bool)) :
    runLoop env s events = runLoopExec env s events := by
  induction events generalizing s with
  | nil => rfl
  | cons e rest ih =>
    simp only [runLoop, runLoopExec, step_eq, processAudio_eq, ih]

/-! ## Shape of a single `step` in each situation -/

theorem step_idle_silence {α : Type} (s : MState α) (c : α) (h : s.is_recording = false) :
    step s c false = ({ s with pre_buffer := pushPre s.pre_buffer c }, none) := by
  simp [step, h]

theorem step_onset {α : Type} (s : MState α) (c : α) (h : s.is_recording = false) :
    step s c true =
      ({ is_recording := true, recording_buffer := pushPre s.pre_buffer c ++ [c],
         silence_chunks := 0, pre_buffer := pushPre s.pre_buffer c }, none) := by
  simp [step, h]

theorem step_rec_speech {α : Type} (s : MState α) (c : α) (h : s.is_recording = true) :
    step s c true =
      ({ is_recording := true, recording_buffer := s.recording_buffer ++ [c],
         silence_chunks := 0, pre_buffer := pushPre s.pre_buffer c }, none) := by
  simp [step, h]

theorem step_rec_silence_low {α : Type} (s : MState α) (c : α) (h : s.is_recording = true)
    (hsc : s.silence_chunks + 1 < 27) :
    step s c false =
      ({ is_recording := true, recording_buffer := s.recording_buffer ++ [c],
         silence_chunks := s.silence_chunks + 1, pre_buffer := pushPre s.pre_buffer c }, none) := by
  have hthr : ¬ (SILENCE_DURATION_SEC ≤
      (((s.silence_chunks + 1 : ℕ) : ℚ) * (CHUNK_DURATION_MS : ℚ)) / 1000) := by
    rw [silence_threshold_iff]; omega
  have hlt : ((s.silence_chunks : ℚ) + 1) * (CHUNK_DURATION_MS : ℚ) / 1000
      < SILENCE_DURATION_SEC := by
    push_cast at hthr
    exact not_le.mp hthr
  simp [step, h, hlt]

theorem step_finalize {α : Type} (s : MState α) (c : α) (h : s.is_recording = true)
    (hsc : 26 ≤ s.silence_chunks) :
    step s c false =
      ({ is_recording := false, recording_buffer := [],
         silence_chunks := 0, pre_buffer := pushPre s.pre_buffer c },
       some (s.recording_buffer ++ [c])) := by
  have hthr : SILENCE_DURATION_SEC ≤
      (((s.silence_chunks + 1 : ℕ) : ℚ) * (CHUNK_DURATION_MS : ℚ)) / 1000 := by
    rw [silence_threshold_iff]; omega
  have hge : SILENCE_DURATION_SEC ≤
      ((s.silence_chunks : ℚ) + 1) * (CHUNK_DURATION_MS : ℚ) / 1000 := by
    push_cast at hthr
    exact hthr
  simp [step, h, hge]

theorem step_pre {α : Type} (s : MState α) (c : α) (b : Bool) :
    ((step s c b).1).pre_buffer = pushPre s.pre_buffer c := by
  cases b with
  | false =>
    cases hrec : s.is_recording with
    | false => rw [step_idle_silence s c hrec]
    | true =>
      rcases Nat.lt_or_ge (s.silence_chunks + 1) 27 with hlt | hge
      · rw [step_rec_silence_low s c hrec hlt]
      · rw [step_finalize s c hrec (by omega)]
  | true =>
    cases hrec : s.is_recording with
    | false => rw [step_onset s c hrec]
    | true => rw [step_rec_speech s c hrec]

/-! ## Runs of the machine -/

theorem runMachine_append {α : Type} (l₁ l₂ : List (α × Bool)) : ∀ s : MState α,
    runMachine s (l₁ ++ l₂) =
      ((runMachine (runMachine s l₁).1 l₂).1,
        (runMachine s l₁).2 ++ (runMachine (runMachine s l₁).1 l₂).2) := by
  induction l₁ with
  | nil => intro s; simp [runMachine]
  | cons e rest ih =>
    intro s
    rw [List.cons_append]
    simp only [runMachine]
    rw [ih]
    simp [List.append_assoc]

theorem runMachine_pre {α : Type} (events : List (α × Bool)) : ∀ s : MState α,
    ((runMachine s events).1).pre_buffer =
      List.foldl pushPre s.pre_buffer (events.map Prod.fst) := by
  induction events with
  | nil => intro s; rfl
  | cons e rest ih =>
    intro s
    simp only [runMachine, List.map_cons, List.foldl_cons]
    rw [ih, step_pre]

theorem runMachine_idle_silence {α : Type} (cs : List α) : ∀ s : MState α,
    s.is_recording = false →
      runMachine s (silEvents cs) =
        ({ s with pre_buffer := List.foldl pushPre s.pre_buffer cs }, []) := by
  induction cs with
  | nil => intro s _; rfl
  | cons x xs ih =>
    intro s h
    have h2 : ({ s with pre_buffer := pushPre s.pre_buffer x } : MState α).is_recording
        = false := h
    simp only [silEvents, List.map_cons, runMachine, step_idle_silence s x h]
    simp only [silEvents] at ih
    rw [ih _ h2]
    rfl

theorem runMachine_rec_silence {α : Type} (cs : List α) : ∀ s : MState α,
    s.is_recording = true → s.silence_chunks + cs.length ≤ 26 →
      runMachine s (silEvents cs) =
        ({ is_recording := true, recording_buffer := s.recording_buffer ++ cs,
           silence_chunks := s.silence_chunks + cs.length,
           pre_buffer := List.foldl pushPre s.pre_buffer cs }, []) := by
  induction cs with
  | nil =>
    intro s h _
    obtain ⟨rec, rb, sc, pre⟩ := s
    cases h
    simp [runMachine, silEvents]
  | cons x xs ih =>
    intro s h hle
    have hlen : s.silence_chunks + 1 < 27 := by
      simp only [List.length_cons] at hle
      omega
    simp only [silEvents, List.map_cons, runMachine, step_rec_silence_low s x h hlen]
    simp only [silEvents] at ih
    rw [ih _ rfl (by simp only [List.length_cons] at hle; simp; omega)]
    simp [Prod.ext_iff, MState.mk.injEq, List.append_assoc]
    try omega

/-! ## The loop as machine-run plus sequential dispatch -/

theorem runLoop_eq_dispatchAll {ε : Type} (env : Env ε) (events : List (List ℤ × Bool)) :
    ∀ s, runLoop env s events
      = dispatchAll env (runMachine s events).1 (runMachine s events).2 := by
  induction events with
  | nil => intro s; rfl
  | cons e rest ih =>
    intro s
    cases hout : (step s e.1 e.2).2 with
    | none =>
      simp only [runLoop, runMachine, hout]
      simpa using ih _
    | some buf =>
      simp only [runLoop, runMachine, hout, Option.toList_some, List.cons_append,
        List.nil_append, dispatchAll]
      rw [ih]

/-! ## Invariants of reachable states -/

theorem MInv_init {α : Type} : MInv (initState (α := α)) := by
  constructor
  · intro h
    exact absurd h (by simp [initState])
  · intro _
    exact ⟨rfl, rfl⟩

theorem one_le_length_pushPre {α : Type} (b : List α) (c : α) :
    1 ≤ (pushPre b c).length := by
  rw [pushPre, length_lastN, pre_buffer_capacity_eq, List.length_append,
    List.length_singleton]
  omega

theorem pushPre_mem {α : Type} {b : List α} {c x : α} (hx : x ∈ pushPre b c) :
    x ∈ b ∨ x = c := by
  rw [pushPre, lastN] at hx
  have hx2 : x ∈ b ++ [c] := List.drop_subset _ _ hx
  simpa using hx2

theorem MInv_step {α : Type} (s : MState α) (c : α) (b : Bool) (hs : MInv s) :
    MInv (step s c b).1 ∧ ∀ buf, (step s c b).2 = some buf → 29 ≤ buf.length := by
  cases b with
  | true =>
    cases hrec : s.is_recording with
    | false =>
      rw [step_onset s c hrec]
      refine ⟨⟨fun _ => ?_, fun h => by simp at h⟩, fun buf h => by simp at h⟩
      show 0 + 2 ≤ (pushPre s.pre_buffer c ++ [c]).length ∧ 0 ≤ 26
      have := one_le_length_pushPre s.pre_buffer c
      simp only [List.length_append, List.length_singleton]
      omega
    | true =>
      rw [step_rec_speech s c hrec]
      obtain ⟨hlen, -⟩ := hs.1 hrec
      refine ⟨⟨fun _ => ?_, fun h => by simp at h⟩, fun buf h => by simp at h⟩
      show 0 + 2 ≤ (s.recording_buffer ++ [c]).length ∧ 0 ≤ 26
      simp only [List.length_append, List.length_singleton]
      omega
  | false =>
    cases hrec : s.is_recording with
    | false =>
      rw [step_idle_silence s c hrec]
      refine ⟨?_, fun buf h => by simp at h⟩
      exact hs
    | true =>
      obtain ⟨hlen, hsc⟩ := hs.1 hrec
      rcases Nat.lt_or_ge (s.silence_chunks + 1) 27 with hlt | hge
      · rw [step_rec_silence_low s c hrec hlt]
        refine ⟨⟨fun _ => ?_, fun h => by simp at h⟩, fun buf h => by simp at h⟩
        show s.silence_chunks + 1 + 2 ≤ (s.recording_buffer ++ [c]).length
          ∧ s.silence_chunks + 1 ≤ 26
        simp only [List.length_append, List.length_singleton]
        omega
      · rw [step_finalize s c hrec (by omega)]
        refine ⟨⟨fun h => by simp at h, fun _ => ⟨rfl, rfl⟩⟩, fun buf h => ?_⟩
        have hbuf : buf = s.recording_buffer ++ [c] := by
          simpa using h.symm
        subst hbuf
        simp only [List.length_append, List.length_singleton]
        omega

theorem MInv_run {α : Type} (events : List (α × Bool)) : ∀ s : MState α, MInv s →
    MInv (runMachine s events).1 ∧ ∀ buf ∈ (runMachine s events).2, 29 ≤ buf.length := by
  induction events with
  | nil =>
    intro s hs
    exact ⟨hs, by intro buf h; simp [runMachine] at h⟩
  | cons e rest ih =>
    intro s hs
    obtain ⟨h1, h2⟩ := MInv_step s e.1 e.2 hs
    obtain ⟨h3, h4⟩ := ih _ h1
    refine ⟨h3, ?_⟩
    intro buf hbuf
    simp only [runMachine, List.mem_append] at hbuf
    rcases hbuf with hbuf | hbuf
    · rcases Option.mem_toList.mp hbuf with h
      exact h2 buf h
    · exact h4 buf hbuf

theorem buffersSat_step {α : Type} (P : α → Prop) (s : MState α) (c : α) (b : Bool)
    (hc : P c) (hs : buffersSat P s) :
    buffersSat P (step s c b).1 ∧ ∀ buf, (step s c b).2 = some buf → ∀ x ∈ buf, P x := by
  have hpre : ∀ x ∈ pushPre s.pre_buffer c, P x := by
    intro x hx
    rcases pushPre_mem hx with hx | hx
    · exact hs.1 x hx
    · exact hx ▸ hc
  have hrb : ∀ x ∈ s.recording_buffer ++ [c], P x := by
    intro x hx
    rcases List.mem_append.mp hx with hx | hx
    · exact hs.2 x hx
    · exact (List.mem_singleton.mp hx) ▸ hc
  cases b with
  | true =>
    cases hrec : s.is_recording with
    | false =>
      rw [step_onset s c hrec]
      refine ⟨⟨hpre, ?_⟩, fun buf h => by simp at h⟩
      intro x hx
      rcases List.mem_append.mp hx with hx | hx
      · exact hpre x hx
      · exact (List.mem_singleton.mp hx) ▸ hc
    | true =>
      rw [step_rec_speech s c hrec]
      exact ⟨⟨hpre, hrb⟩, fun buf h => by simp at h⟩
  | false =>
    cases hrec : s.is_recording with
    | false =>
      rw [step_idle_silence s c hrec]
      exact ⟨⟨hpre, hs.2⟩, fun buf h => by simp at h⟩
    | true =>
      rcases Nat.lt_or_ge (s.silence_chunks + 1) 27 with hlt | hge
      · rw [step_rec_silence_low s c hrec hlt]
        exact ⟨⟨hpre, hrb⟩, fun buf h => by simp at h⟩
      · rw [step_finalize s c hrec (by omega)]
        refine ⟨⟨hpre, by intro x hx; simp at hx⟩, fun buf h => ?_⟩
        have hbuf : buf = s.recording_buffer ++ [c] := by simpa using h.symm
        exact hbuf ▸ hrb

theorem buffersSat_run {α : Type} (P : α → Prop) (events : List (α × Bool)) :
    ∀ s : MState α, buffersSat P s → (∀ p ∈ events, P p.1) →
      buffersSat P (runMachine s events).1
        ∧ ∀ buf ∈ (runMachine s events).2, ∀ x ∈ buf, P x := by
  induction events with
  | nil =>
    intro s hs _
    exact ⟨hs, by intro buf h; simp [runMachine] at h⟩
  | cons e rest ih =>
    intro s hs hev
    obtain ⟨h1, h2⟩ := buffersSat_step P s e.1 e.2 (hev e (by simp)) hs
    obtain ⟨h3, h4⟩ := ih _ h1 (fun p hp => hev p (by simp [hp]))
    refine ⟨h3, ?_⟩
    intro buf hbuf
    simp only [runMachine, List.mem_append] at hbuf
    rcases hbuf with hbuf | hbuf
    · exact h2 buf (Option.mem_toList.mp hbuf)
    · exact h4 buf hbuf

/-! ## Sample-count arithmetic -/

theorem length_normalizeAudio (l : List (List ℤ)) (n : ℕ) (h : ∀ c ∈ l, c.length = n) :
    (normalizeAudio l).length = n * l.length := by
  rw [normalizeAudio, List.length_map, List.length_flatten]
  induction l with
  | nil => simp
  | cons c cs ih =>
    simp only [List.map_cons, List.sum_cons, List.length_cons]
    rw [h c (by simp), ih (fun d hd => h d (by simp [hd]))]
    ring

theorem tooShort_false_of (l : List (List ℤ)) (h : ∀ c ∈ l, c.length = CHUNK_SIZE)
    (hn : 17 ≤ l.length) : tooShort l = false := by
  rw [tooShort_eq, tooShortExec]
  simp only [decide_eq_false_iff_not, not_lt]
  rw [length_normalizeAudio l CHUNK_SIZE h, chunk_size_eq]
  omega

/-! ## Claim theorems -/

/-- Claim C4: after any sequence of pushes the PreBuffer holds exactly the
last `min(pushed, capacity)` chunks in arrival order (strict FIFO eviction),
the capacity `PRE_BUFFER_DURATION_SEC * RATE / CHUNK_SIZE` is 50, and the
machine's pre-buffer is exactly this window of all chunks consumed so far. -/
theorem c4_pre_buffer_window {α : Type} :
    (∀ l : List α, preContents l = lastN PRE_BUFFER_CAPACITY l
      ∧ (preContents l).length = min l.length PRE_BUFFER_CAPACITY)
    ∧ PRE_BUFFER_CAPACITY = 50
    ∧ ∀ events : List (α × Bool),
        ((runMachine (initState (α := α)) events).1).pre_buffer
          = lastN PRE_BUFFER_CAPACITY (events.map Prod.fst) := by
  have hcontents : ∀ l : List α, preContents l = lastN PRE_BUFFER_CAPACITY l := by
    intro l
    rw [preContents, foldl_pushPre l [] (by simp), List.nil_append]
  refine ⟨fun l => ⟨hcontents l, ?_⟩, pre_buffer_capacity_eq, fun events => ?_⟩
  · rw [hcontents l, length_lastN]
    omega
  · rw [runMachine_pre]
    show List.foldl pushPre [] (events.map Prod.fst) = _
    rw [foldl_pushPre _ [] (by simp), List.nil_append]

/-- Claim C1 (counterexample): after 50 distinct silence chunks and a speech
chunk, the recording buffer is NOT "the last 50 silence chunks followed by
the speech chunk once": the pre-buffer is pushed before the VAD test, so the
snapshot already ends with the triggering chunk, which is then appended
again — it holds only the last 49 silence chunks and the trigger twice. -/
theorem c1_counterexample :
    ¬ ((((runMachine (initState (α := ℕ))
            (silEvents (List.range 50) ++ [(99, true)])).1).recording_buffer
          = List.range 50 ++ [99])
        ∧ ((((runMachine (initState (α := ℕ))
            (silEvents (List.range 50) ++ [(99, true)])).1).recording_buffer).count 99 ≤ 1)) := by
  simp only [runMachine_eq]
  decide

/-- Claim C1 (amended): from any Idle state, after at least `capacity`
silence chunks followed by one speech chunk, the new RecordingBuffer is the
last `capacity - 1` silence chunks in arrival order followed by the
triggering speech chunk twice (once from the pre-buffer snapshot taken after
the push, once from the explicit append); nothing is dispatched and the
machine is Recording with a zero silence counter. -/
theorem c1_recording_buffer_on_onset {α : Type} (s : MState α) (h : s.is_recording = false)
    (cs : List α) (c : α) (hlen : PRE_BUFFER_CAPACITY ≤ cs.length) :
    ((runMachine s (silEvents cs ++ [(c, true)])).1).recording_buffer
        = cs.drop (cs.length - (PRE_BUFFER_CAPACITY - 1)) ++ [c, c]
      ∧ (runMachine s (silEvents cs ++ [(c, true)])).2 = []
      ∧ ((runMachine s (silEvents cs ++ [(c, true)])).1).is_recording = true
      ∧ ((runMachine s (silEvents cs ++ [(c, true)])).1).silence_chunks = 0 := by
  have hcap : PRE_BUFFER_CAPACITY = 50 := pre_buffer_capacity_eq
  rw [hcap] at hlen
  have hfold : pushPre (List.foldl pushPre s.pre_buffer cs) c
      = cs.drop (cs.length - 49) ++ [c] := by
    have h2 : pushPre (List.foldl pushPre s.pre_buffer cs) c
        = List.foldl pushPre s.pre_buffer (cs ++ [c]) := by
      rw [List.foldl_append]
      rfl
    rcases cs with _ | ⟨x, xs⟩
    · simp at hlen
    · rw [h2, List.cons_append, foldl_pushPre_cons, ← List.cons_append,
        lastN_append_of_le _ _ (by
          rw [hcap, List.length_append, List.length_singleton]
          simp only [List.length_cons] at hlen ⊢
          omega)]
      rw [lastN, List.length_append, List.length_singleton, hcap]
      rw [List.drop_append_of_le_length (by
        simp only [List.length_cons] at hlen ⊢
        omega)]
      have hidx : (x :: xs).length + 1 - 50 = (x :: xs).length - 49 := by omega
      rw [hidx]
  have h1 : (({ s with pre_buffer := List.foldl pushPre s.pre_buffer cs } : MState α)).is_recording
      = false := h
  rw [runMachine_append, runMachine_idle_silence cs s h]
  simp only [runMachine, step_onset _ c h1, Option.toList_none, List.append_nil,
    List.nil_append]
  refine ⟨?_, by trivial, by trivial, by trivial⟩
  show pushPre (List.foldl pushPre s.pre_buffer cs) c ++ [c] = _
  rw [hfold, hcap]
  simp [List.append_assoc]

/-- Witness for the amended Claim C1 at a concrete input. -/
theorem c1_witness :
    ((runMachine (initState (α := ℕ))
        (silEvents (List.range 50) ++ [(99, true)])).1).recording_buffer
      = (List.range 50).drop ((List.range 50).length - (PRE_BUFFER_CAPACITY - 1)) ++ [99, 99] :=
  (c1_recording_buffer_on_onset initState rfl (List.range 50) 99
    (by rw [pre_buffer_capacity_eq]; simp)).1

/-- Claim C3: within a maximal run of consecutive silence-classified chunks
processed in Recording state (the counter starts at 0 there), no finalize
fires during the first 26 silence chunks — the machine stays Recording with
the counter equal to the run length — and on the 27th consecutive silence
chunk (27 = ⌈0.8 s / 0.03 s⌉) the finalize transition fires: the buffer
(with that chunk appended) is handed off, the RecordingBuffer is cleared and
the state returns to Idle with a zero counter. -/
theorem c3_finalize_timing {α : Type} (s : MState α) (hrec : s.is_recording = true)
    (hsc : s.silence_chunks = 0) (cs : List α) :
    (cs.length ≤ 26 →
      (runMachine s (silEvents cs)).2 = []
        ∧ ((runMachine s (silEvents cs)).1).is_recording = true
        ∧ ((runMachine s (silEvents cs)).1).silence_chunks = cs.length)
    ∧ (cs.length = 27 →
      (runMachine s (silEvents cs)).2 = [s.recording_buffer ++ cs]
        ∧ ((runMachine s (silEvents cs)).1).is_recording = false
        ∧ ((runMachine s (silEvents cs)).1).recording_buffer = []
        ∧ ((runMachine s (silEvents cs)).1).silence_chunks = 0) := by
  constructor
  · intro hle
    rw [runMachine_rec_silence cs s hrec (by omega)]
    exact ⟨rfl, rfl, by simp [hsc]⟩
  · intro h27
    rcases List.eq_nil_or_concat cs with rfl | ⟨l, x, rfl⟩
    · rw [List.length_nil] at h27
      exact absurd h27 (by omega)
    · simp only [List.concat_eq_append] at h27 ⊢
      have hlen : l.length = 26 := by
        simp only [List.length_append, List.length_singleton] at h27
        omega
      have hsplit : silEvents (l ++ [x]) = silEvents l ++ [(x, false)] := by
        simp [silEvents]
      rw [hsplit, runMachine_append, runMachine_rec_silence l s hrec (by omega)]
      have hfin := step_finalize
        ({ is_recording := true, recording_buffer := s.recording_buffer ++ l,
           silence_chunks := s.silence_chunks + l.length,
           pre_buffer := List.foldl pushPre s.pre_buffer l } : MState α)
        x rfl (by simp only; omega)
      simp only [runMachine, hfin, Option.toList_some, List.nil_append, List.append_nil]
      refine ⟨?_, by trivial, by trivial, by trivial⟩
      show [] ++ ([(s.recording_buffer ++ l) ++ [x]] ++ []) = [s.recording_buffer ++ (l ++ [x])]
      simp [List.append_assoc]

/-- Witness for Claim C3: after a single speech chunk from the initial state,
10 silence chunks leave the machine recording with counter 10 and no
dispatch, while 27 silence chunks finalize exactly at the last one. -/
theorem c3_witness :
    ((runMachine (reachedState [((0:ℕ), true)]) (silEvents (List.replicate 10 0))).2 = []
      ∧ ((runMachine (reachedState [((0:ℕ), true)]) (silEvents (List.replicate 10 0))).1).is_recording = true
      ∧ ((runMachine (reachedState [((0:ℕ), true)]) (silEvents (List.replicate 10 0))).1).silence_chunks
          = (List.replicate 10 (0:ℕ)).length)
    ∧ ((runMachine (reachedState [((0:ℕ), true)]) (silEvents (List.replicate 27 0))).2
          = [(reachedState [((0:ℕ), true)]).recording_buffer ++ List.replicate 27 0]
      ∧ ((runMachine (reachedState [((0:ℕ), true)]) (silEvents (List.replicate 27 0))).1).is_recording = false
      ∧ ((runMachine (reachedState [((0:ℕ), true)]) (silEvents (List.replicate 27 0))).1).recording_buffer = []
      ∧ ((runMachine (reachedState [((0:ℕ), true)]) (silEvents (List.replicate 27 0))).1).silence_chunks = 0) :=
  ⟨(c3_finalize_timing (reachedState [((0:ℕ), true)])
      (by simp only [reachedState, runMachine_eq]; decide)
      (by simp only [reachedState, runMachine_eq]; decide)
      (List.replicate 10 0)).1 (by decide),
   (c3_finalize_timing (reachedState [((0:ℕ), true)])
      (by simp only [reachedState, runMachine_eq]; decide)
      (by simp only [reachedState, runMachine_eq]; decide)
      (List.replicate 27 0)).2 (by decide)⟩

/-- Claim C9 (implicit): every buffer handed to `process_audio` by the
finalize transition holds at least 29 chunks (the onset seeds at least two
entries — the pre-buffer always contains at least the triggering chunk —
and 27 consecutive silence chunks are appended before finalize), so with
480-sample capture chunks the 0.5-second minimum-duration discard branch of
`process_audio` is unreachable on the finalize path. -/
theorem c9_finalized_min_length (events : List (List ℤ × Bool))
    (hall : ∀ p ∈ events, (p.1).length = CHUNK_SIZE)
    (buf : List (List ℤ)) (hbuf : buf ∈ (runMachine (initState (α := List ℤ)) events).2) :
    29 ≤ buf.length ∧ tooShort buf = false := by
  obtain ⟨-, h2⟩ := MInv_run events initState MInv_init
  have hlen := h2 buf hbuf
  obtain ⟨-, h4⟩ := buffersSat_run (fun c => c.length = CHUNK_SIZE) events initState
    ⟨by simp [initState], by simp [initState]⟩ hall
  exact ⟨hlen, tooShort_false_of buf (h4 buf hbuf) (by omega)⟩

/-- Witness for Claim C9: the 29-chunk buffer finalized after one speech
chunk and 27 silence chunks of 480 zero samples each. -/
theorem c9_witness :
    29 ≤ (List.replicate 29 zChunk).length ∧ tooShort (List.replicate 29 zChunk) = false :=
  c9_finalized_min_length oneUtterance (by decide) (List.replicate 29 zChunk)
    (by simp only [runMachine_eq]; decide)

/-- Claim C10 (implicit): in every state reachable from the initial state
(i.e. at the start of every loop iteration), Recording implies the
accumulated silence `silence_chunks * 30 / 1000` is strictly below the
0.8-second threshold (counter at most 26), Idle implies an empty
RecordingBuffer and a zero counter, and whenever a silence chunk makes the
accumulated silence reach the threshold the finalize transition fires in
that same iteration. -/
theorem c10_loop_invariant {α : Type} (events : List (α × Bool)) :
    ((reachedState events).is_recording = true →
      ((reachedState events).silence_chunks : ℚ) * (CHUNK_DURATION_MS : ℚ) / 1000
          < SILENCE_DURATION_SEC
        ∧ (reachedState events).silence_chunks ≤ 26)
    ∧ ((reachedState events).is_recording = false →
      (reachedState events).recording_buffer = [] ∧ (reachedState events).silence_chunks = 0)
    ∧ ∀ c : α, (reachedState events).is_recording = true →
        SILENCE_DURATION_SEC ≤
          (((reachedState events).silence_chunks + 1 : ℕ) : ℚ) * (CHUNK_DURATION_MS : ℚ) / 1000 →
        (step (reachedState events) c false).2
          = some ((reachedState events).recording_buffer ++ [c]) := by
  obtain ⟨hinv0, -⟩ := MInv_run events initState MInv_init
  have hinv : MInv (reachedState events) := hinv0
  refine ⟨fun hrec => ?_, fun hidle => hinv.2 hidle, fun c hrec hthr => ?_⟩
  · obtain ⟨-, hsc⟩ := hinv.1 hrec
    refine ⟨?_, hsc⟩
    have h1 : ¬ (SILENCE_DURATION_SEC ≤
        (((reachedState events).silence_chunks : ℚ) * (CHUNK_DURATION_MS : ℚ)) / 1000) := by
      rw [silence_threshold_iff]
      omega
    exact not_le.mp h1
  · have hsc27 : 27 ≤ (reachedState events).silence_chunks + 1 :=
      (silence_threshold_iff _).mp hthr
    rw [step_finalize _ c hrec (by omega)]

/-- Witness for Claim C10 at concrete reachable states: just after an onset,
after no events at all, and at a recording state with counter 26 where the
next silence chunk finalizes. -/
theorem c10_witness :
    (((reachedState [((0:ℕ), true)]).silence_chunks : ℚ) * (CHUNK_DURATION_MS : ℚ) / 1000
        < SILENCE_DURATION_SEC
      ∧ (reachedState [((0:ℕ), true)]).silence_chunks ≤ 26)
    ∧ ((reachedState ([] : List (ℕ × Bool))).recording_buffer = []
      ∧ (reachedState ([] : List (ℕ × Bool))).silence_chunks = 0)
    ∧ (step (reachedState (((0:ℕ), true) :: silEvents (List.replicate 26 0))) 7 false).2
        = some ((reachedState (((0:ℕ), true) :: silEvents (List.replicate 26 0))).recording_buffer
            ++ [7]) :=
  ⟨(c10_loop_invariant [((0:ℕ), true)]).1
      (by simp only [reachedState, runMachine_eq]; decide),
   (c10_loop_invariant ([] : List (ℕ × Bool))).2.1 rfl,
   (c10_loop_invariant (((0:ℕ), true) :: silEvents (List.replicate 26 0))).2.2 7
      (by simp only [reachedState, runMachine_eq]; decide)
      (by
        have hsc : (reachedState (((0:ℕ), true) :: silEvents (List.replicate 26 0))).silence_chunks
            = 26 := by
          simp only [reachedState, runMachine_eq]
          decide
        exact (silence_threshold_iff _).mpr (by omega))⟩

/-- Claim C6: an assembled chunk sequence of total duration strictly below
0.5 s (fewer than `0.5 * RATE` samples) makes `process_audio` return before
calling the transcription engine: no transcription call, no injection call,
no log line and no exception, for every environment. -/
theorem c6_short_utterance_drop {ε : Type} (env : Env ε) (chunks : List (List ℤ))
    (h : ((normalizeAudio chunks).length : ℚ) < 1 / 2 * (RATE : ℚ)) :
    processAudio env chunks = .ok (false, [], []) := by
  have hts : tooShort chunks = true := by
    rw [tooShort]
    exact decide_eq_true h
  simp [processAudio, hts]

/-- Witness for Claim C6: a single 100-sample chunk (6.25 ms) is silently
dropped. -/
theorem c6_witness :
    processAudio envOk [List.replicate 100 (0 : ℤ)] = .ok (false, [], []) :=
  c6_short_utterance_drop envOk [List.replicate 100 (0 : ℤ)]
    (by
      have hl : (normalizeAudio [List.replicate 100 (0 : ℤ)]).length = 100 := by
        simp [normalizeAudio]
      rw [hl]
      norm_num [RATE])

/-- Claim C7: the dispatcher keeps exactly the segments whose stripped text
is non-empty, joins them with single spaces, and performs a text-injection
call if and only if the joined text is non-empty; every injection call
receives the joined text followed by a single trailing space. -/
theorem c7_dispatcher_join_inject {ε : Type} (env : Env ε) (chunks : List (List ℤ))
    (segments : List String)
    (htr : env.transcribe (normalizeAudio chunks) = .ok segments)
    (hlong : tooShort chunks = false) :
    fullTextOf segments
        = String.intercalate " " ((segments.map String.trim).filter (fun t => t ≠ ""))
      ∧ (injectionsOf (processAudio env chunks) ≠ [] ↔ fullTextOf segments ≠ "")
      ∧ ∀ a ∈ injectionsOf (processAudio env chunks), a = fullTextOf segments ++ " " := by
  have h1 : fullTextOf segments = "" → injectionsOf (processAudio env chunks) = [] := by
    intro hf
    simp [processAudio, hlong, htr, hf, injectionsOf]
  have h2 : fullTextOf segments ≠ "" →
      injectionsOf (processAudio env chunks) = [fullTextOf segments ++ " "]
        ∨ injectionsOf (processAudio env chunks)
            = [fullTextOf segments ++ " ", fullTextOf segments ++ " "] := by
    intro hf
    cases hyd : env.ydotool (fullTextOf segments ++ " ") with
    | ok u =>
      left
      simp [processAudio, hlong, htr, hf, typeText, hyd, injectionsOf]
    | error e =>
      cases hxd : env.xdotool (fullTextOf segments ++ " ") with
      | ok u =>
        right
        simp [processAudio, hlong, htr, hf, typeText, hyd, hxd, injectionsOf]
      | error e2 =>
        right
        simp [processAudio, hlong, htr, hf, typeText, hyd, hxd, injectionsOf]
  refine ⟨rfl, ⟨fun hinj => ?_, fun hf => ?_⟩, ?_⟩
  · intro hfull
    exact hinj (h1 hfull)
  · rcases h2 hf with h | h <;> simp [h]
  · intro a ha
    by_cases hf : fullTextOf segments = ""
    · rw [h1 hf] at ha
      exact absurd ha (by simp)
    · rcases h2 hf with h | h <;> rw [h] at ha <;> simpa using ha

/-- Witness for Claim C7 on a 29-chunk buffer with segments
`[" hello ", "", "world "]`. -/
theorem c7_witness :
    fullTextOf [" hello ", "", "world "]
        = String.intercalate " "
            (([" hello ", "", "world "].map String.trim).filter (fun t => t ≠ ""))
      ∧ (injectionsOf (processAudio envHello (List.replicate 29 zChunk)) ≠ []
          ↔ fullTextOf [" hello ", "", "world "] ≠ "")
      ∧ ∀ a ∈ injectionsOf (processAudio envHello (List.replicate 29 zChunk)),
          a = fullTextOf [" hello ", "", "world "] ++ " " :=
  c7_dispatcher_join_inject envHello (List.replicate 29 zChunk) [" hello ", "", "world "] rfl
    (tooShort_false_of _
      (fun c hc => by rw [List.eq_of_mem_replicate hc]; simp [zChunk])
      (by simp))

/-- Claim C8: the assembler concatenates the chunks' int16 samples in order
and scales each by 1/32768; for int16-range inputs every resulting sample
lies in the closed interval [-1, 1]. -/
theorem c8_normalization_bounds (chunks : List (List ℤ))
    (h : ∀ c ∈ chunks, ∀ s ∈ c, -32768 ≤ s ∧ s ≤ 32767) :
    normalizeAudio chunks = chunks.flatten.map (fun s : ℤ => (s : ℚ) / 32768)
      ∧ ∀ x ∈ normalizeAudio chunks, -1 ≤ x ∧ x ≤ 1 := by
  refine ⟨rfl, ?_⟩
  intro x hx
  obtain ⟨sint, hs, rfl⟩ := List.mem_map.mp hx
  obtain ⟨c, hc, hsc⟩ := List.mem_flatten.mp hs
  obtain ⟨hlo, hhi⟩ := h c hc sint hsc
  have hlo' : ((-32768 : ℤ) : ℚ) ≤ (sint : ℚ) := by exact_mod_cast hlo
  have hhi' : ((sint : ℚ)) ≤ ((32767 : ℤ) : ℚ) := by exact_mod_cast hhi
  norm_num at hlo' hhi'
  constructor
  · rw [le_div_iff₀ (by norm_num : (0 : ℚ) < 32768)]
    linarith
  · rw [div_le_one (by norm_num : (0 : ℚ) < 32768)]
    linarith

/-- Witness for Claim C8 on the extreme int16 samples. -/
theorem c8_witness :
    normalizeAudio [[-32768, 0, 32767]]
        = ([[-32768, 0, 32767]] : List (List ℤ)).flatten.map (fun s : ℤ => (s : ℚ) / 32768)
      ∧ ∀ x ∈ normalizeAudio [[-32768, 0, 32767]], -1 ≤ x ∧ x ≤ 1 :=
  c8_normalization_bounds [[-32768, 0, 32767]] (by decide)

/-- Claim C2 (counterexample): with a transcription engine that raises, the
main loop terminates with that exception — `process_audio` has no handler
around `model.transcribe`, and the loop's `try` catches only
`KeyboardInterrupt` — so the pending second utterance is never processed. -/
theorem c2_counterexample :
    errB (runLoop envBoom initState twoUtterances) = some "transcription failed" := by
  rw [runLoop_eq_dispatchAll]
  have hbufs : (runMachine (initState (α := List ℤ)) twoUtterances).2
      = [List.replicate 29 zChunk, List.replicate 57 zChunk] := by
    rw [runMachine_eq]
    decide
  rw [hbufs]
  have hts : tooShort (List.replicate 29 zChunk) = false :=
    tooShort_false_of _
      (fun c hc => by rw [List.eq_of_mem_replicate hc]; simp [zChunk])
      (by simp)
  have hpa1 : processAudio envBoom (List.replicate 29 zChunk)
      = Except.error "transcription failed" := by
    simp only [processAudio, hts]
    rfl
  simp only [dispatchAll, hpa1]
  rfl

/-- Claim C2 (amended): exceptions raised by the text-injection backends are
always caught inside `type_text` (both `except:` clauses are bare), so as
long as the transcription call itself does not raise, the main loop runs to
completion over any event stream — injection failures never terminate it. -/
theorem c2_injection_failures_contained {ε : Type} (env : Env ε) (s : MState (List ℤ))
    (events : List (List ℤ × Bool))
    (h : ∀ a, okB (env.transcribe a) = true) :
    okB (runLoop env s events) = true := by
  induction events generalizing s with
  | nil => rfl
  | cons e rest ih =>
    cases hout : (step s e.1 e.2).2 with
    | none =>
      simp only [runLoop, hout]
      exact ih _
    | some buf =>
      have hpa : okB (processAudio env buf) = true := by
        rw [processAudio]
        cases hts : tooShort buf with
        | true => simp [hts, okB]
        | false =>
          simp only [hts, Bool.false_eq_true, if_false]
          cases htr : env.transcribe (normalizeAudio buf) with
          | error e2 =>
            have hok := h (normalizeAudio buf)
            rw [htr] at hok
            simp [okB] at hok
          | ok segs =>
            by_cases hf : fullTextOf segs = "" <;> simp [hf, okB]
      simp only [runLoop, hout]
      cases hpaeq : processAudio env buf with
      | error e2 =>
        rw [hpaeq] at hpa
        simp [okB] at hpa
      | ok r =>
        cases hrl : runLoop env (step s e.1 e.2).1 rest with
        | error e3 =>
          have hih := ih (step s e.1 e.2).1
          rw [hrl] at hih
          simp [okB] at hih
        | ok v =>
          obtain ⟨sf, rs⟩ := v
          simp [hpaeq, hrl, okB]

/-- Witness for the amended Claim C2: both injection backends raise on every
call, yet the loop completes an utterance cycle successfully. -/
theorem c2_witness : okB (runLoop envFailInj initState oneUtterance) = true :=
  c2_injection_failures_contained envFailInj initState oneUtterance (fun _ => rfl)

/-- A successful single dispatch through `dispatchAll`, generically. -/
theorem dispatchFlags_dispatchAll_single {ε : Type} (env : Env ε) (sf : MState (List ℤ))
    (b : List (List ℤ)) (r : Bool × List String × List String)
    (h : processAudio env b = .ok r) :
    dispatchFlags (dispatchAll env sf [b]) = [r.1] := by
  simp only [dispatchAll, h]
  rfl

/-- Claim C5: in the concrete scenario (100 silence chunks, 40 speech
chunks, 30 silence chunks, each of 480 samples): the machine is still Idle
after the 100 silence chunks and Recording right after the first speech
chunk; nothing is finalized through the 26th trailing silence chunk; the
27th trailing silence chunk (event 167) finalizes exactly one buffer of 117
chunks; that buffer is not rejected by the minimum-duration filter and is
dispatched to the transcription engine. -/
theorem c5_scenario :
    ((runMachine (initState (α := List ℤ)) (scenarioEvents.take 100)).1).is_recording = false
    ∧ ((runMachine (initState (α := List ℤ)) (scenarioEvents.take 101)).1).is_recording = true
    ∧ (runMachine (initState (α := List ℤ)) (scenarioEvents.take 166)).2 = []
    ∧ (runMachine (initState (α := List ℤ)) (scenarioEvents.take 167)).2
        = [List.replicate 117 zChunk]
    ∧ (runMachine (initState (α := List ℤ)) scenarioEvents).2 = [List.replicate 117 zChunk]
    ∧ tooShort (List.replicate 117 zChunk) = false
    ∧ dispatchFlags (runLoop envOk initState scenarioEvents) = [true] := by
  have hts : tooShort (List.replicate 117 zChunk) = false :=
    tooShort_false_of _
      (fun c hc => by rw [List.eq_of_mem_replicate hc]; simp [zChunk])
      (by simp)
  have hbufs : (runMachine (initState (α := List ℤ)) scenarioEvents).2
      = [List.replicate 117 zChunk] := by
    rw [runMachine_eq]
    decide
  have hpa : processAudio envOk (List.replicate 117 zChunk) = .ok (true, [], []) := by
    simp only [processAudio, hts]
    rfl
  have hflags : dispatchFlags (runLoop envOk initState scenarioEvents) = [true] := by
    rw [runLoop_eq_dispatchAll, hbufs]
    exact dispatchFlags_dispatchAll_single envOk _ _ _ hpa
  exact ⟨by rw [runMachine_eq]; decide, by rw [runMachine_eq]; decide,
    by rw [runMachine_eq]; decide, by rw [runMachine_eq]; decide, hbufs, hts, hflags⟩
